import Mathlib

/-!
Shallow embedding of the gegechat server (src/server.c together with the
constants of src/chat.h) and proofs about its connection table, relay
dispatch, session termination and event loop.

Byte payloads are modelled as `List Nat` (the byte values of the C strings,
NUL excluded unless stated).  Socket descriptors are `Int` values, with a
negative value marking an empty connection slot, exactly as in the C table
`int fd[MAXCON]`.  The environment (results of the `send`, `recv`, `accept`
and `select` calls) is passed in explicitly, so every function is a pure
executable translation of the corresponding C function.
-/

namespace GegeChat

/-- chat.h: `#define MAXCHR 256`. -/
def MAXCHR : Nat := 256

/-- chat.h: `#define MAXCON 5`. -/
def MAXCON : Nat := 5

/-- The bytes of `ACK_S = "OK"` (chat.h), without the NUL terminator. -/
def ackMarker : List Nat := [79, 75]

/-- The bytes actually passed to `send(fd[i], ACK_S, sizeof(ACK_S), 0)` in
`communication` (server.c line 157): `sizeof(ACK_S)` is 3, so the string
NUL terminator is sent as well. -/
def ackWire : List Nat := ackMarker ++ [0]

/-- The bytes of `MSG_C = "exit\n"` (chat.h). -/
def MSG_C : List Nat := [101, 120, 105, 116, 10]

/-- The errno values distinguished by server.c. -/
inductive Errno
  | eintr
  | epipe
  | econnreset
  | other
deriving DecidableEq

/-- Result of one `send` call: success (a nonnegative byte count) or a
failure with the given errno. -/
inductive SendRes
  | ok
  | err (e : Errno)
deriving DecidableEq

/-- One `send` call performed by the server: the table slot of the
destination, the descriptor value passed to `send`, and the bytes sent. -/
structure SendEv where
  slot : Nat
  dst : Int
  bytes : List Nat
deriving DecidableEq

/-- server.c line 90: `snprintf(message, MAXCHR, "C%d: %s", i + 1, buffer)`
produces the label bytes `C`, the decimal digits of `i + 1`, `:`, space. -/
def labelBytes (i : Nat) : List Nat :=
  67 :: (toString (i + 1)).toList.map Char.toNat ++ [58, 32]

/-- The message `dispatch` builds for sender slot `i` and payload `buffer`:
`snprintf` truncates to at most `MAXCHR - 1` content bytes, and
`send(..., strlen(message), ...)` then sends exactly those bytes. -/
def relayMsg (i : Nat) (payload : List Nat) : List Nat :=
  (labelBytes i ++ payload).take (MAXCHR - 1)

/-!
## Connection table scan: `freeConnections` (server.c lines 73-84)

The C loop condition is `(fd[fdlib] >= 0) && (fdlib < MAXCON)`: the array
element is read BEFORE the bound test, so the embedding records, next to the
returned value, the list of indices the function reads from the table
memory.  `mem` is the memory the `int *fd` argument points into: indices
below `MAXCON` are the table, larger indices are whatever lies past it.
-/

/-- One state of the `while` loop of `freeConnections`, with an access
trace.  `fuel` only bounds the recursion; the loop exits after at most
`MAXCON` increments because the second conjunct caps `fdlib`. -/
def fcStep (mem : Nat → Int) : Nat → Nat → List Nat → Int × List Nat
  | 0, fdlib, acc => ((if fdlib < MAXCON then (fdlib : Int) else -1), acc)
  | fuel + 1, fdlib, acc =>
      if 0 ≤ mem fdlib ∧ fdlib < MAXCON then
        fcStep mem fuel (fdlib + 1) (acc ++ [fdlib])
      else
        ((if fdlib < MAXCON then (fdlib : Int) else -1), acc ++ [fdlib])

/-- The full run of the `freeConnections` loop from `fdlib = 0`. -/
def fcRun (mem : Nat → Int) : Int × List Nat :=
  fcStep mem (MAXCON + 1) 0 []

/-- The value `freeConnections` returns: the lowest free slot, `-1` when
the table is full. -/
def freeConnections (mem : Nat → Int) : Int :=
  (fcRun mem).1

/-- The indices of `fd[...]` that `freeConnections` reads. -/
def fcAccesses (mem : Nat → Int) : List Nat :=
  (fcRun mem).2

/-- The memory seen through a table value: entries of the list, and `-1`
past its end (the value read there never influences the result, see
`fcStep_result_congr`). -/
def memOf (fd : List Int) : Nat → Int :=
  fun j => fd.getD j (-1)

/-!
## Relay fan-out: `dispatch` (server.c lines 86-123)

`denv k a` is the result of attempt `a` (0 = first, 1 = retry) of the
`send` to slot `k`.  The result records the new table, the new `nClient`,
the trace of `send` calls, and the descriptors passed to `close`.
-/

/-- Result of a table-mutating step of the server. -/
structure DOut where
  fd : List Int
  nClient : Int
  sends : List SendEv
  closes : List Int
deriving DecidableEq

/-- The body of the `for (k = 0; k < MAXCON; k++)` loop of `dispatch` at
one value of `k`: skip `k == i` and empty slots; on a first `send` failure
with `EINTR` retry exactly once; on a retry failure or any other failure
close the recipient, clear its slot and decrement `nClient`. -/
def dispatchAt (denv : Nat → Nat → SendRes) (msg : List Nat) (i k : Nat)
    (fd : List Int) (nClient : Int) : DOut :=
  let fdk := fd.getD k (-1)
  if k ≠ i ∧ -1 < fdk then
    let ev : SendEv := ⟨k, fdk, msg⟩
    match denv k 0 with
    | .ok => ⟨fd, nClient, [ev], []⟩
    | .err .eintr =>
        match denv k 1 with
        | .ok => ⟨fd, nClient, [ev, ev], []⟩
        | .err _ => ⟨fd.set k (-1), nClient - 1, [ev, ev], [fdk]⟩
    | .err _ => ⟨fd.set k (-1), nClient - 1, [ev], [fdk]⟩
  else
    ⟨fd, nClient, [], []⟩

/-- The `dispatch` loop over a list of slot indices, threading the table
and the counter and concatenating the traces. -/
def dispatchSlots (denv : Nat → Nat → SendRes) (msg : List Nat) (i : Nat) :
    List Nat → List Int → Int → DOut
  | [], fd, nClient => ⟨fd, nClient, [], []⟩
  | k :: ks, fd, nClient =>
      let a := dispatchAt denv msg i k fd nClient
      let b := dispatchSlots denv msg i ks a.fd a.nClient
      ⟨b.fd, b.nClient, a.sends ++ b.sends, a.closes ++ b.closes⟩

/-- server.c `dispatch(fd, i)`: format the message for sender `i`, then
run the loop over slots `0, ..., MAXCON - 1`. -/
def dispatch (denv : Nat → Nat → SendRes) (i : Nat) (payload : List Nat)
    (fd : List Int) (nClient : Int) : DOut :=
  dispatchSlots denv (relayMsg i payload) i (List.range MAXCON) fd nClient

/-!
## Per-client read: `communication` (server.c lines 125-183)

The `recv` retry loop absorbs `EINTR` results internally, so the
environment supplies the first non-interrupted outcome of `recv`:
data bytes, an orderly close (0 bytes), or a non-EINTR error.
-/

/-- First non-EINTR outcome of the `recv` call in `communication`. -/
inductive RecvOutcome
  | data (payload : List Nat)
  | closed
  | failed
deriving DecidableEq

/-- Environment of one `communication` call. -/
structure CommEnv where
  recv : RecvOutcome
  ackSend : SendRes
  disp : Nat → Nat → SendRes

/-- Result of `communication`: the `out` return value, the table and
counter (both possibly shrunk by `dispatch`), the `dispatch` send trace,
the ACK send to the reader (if performed), and the descriptors closed by
`dispatch`. -/
structure COut where
  out : Int
  fd : List Int
  nClient : Int
  sends : List SendEv
  ack : Option SendEv
  closes : List Int
deriving DecidableEq

/-- server.c `communication(fd, i)`: on a read error or an orderly close
return `-1`; on data, relay via `dispatch` when more than one client is
connected, then, when the payload starts with the bytes of `MSG_C`
(the `strncmp(buffer, MSG_C, strlen(MSG_C))` test), send
`sizeof(ACK_S) = 3` bytes of ACK to the reader and return `-1` on every
outcome of that send (each errno branch and the success branch all end
with `out = -1`). -/
def communication (env : CommEnv) (i : Nat) (fd : List Int)
    (nClient : Int) : COut :=
  match env.recv with
  | .failed => ⟨-1, fd, nClient, [], none, []⟩
  | .closed => ⟨-1, fd, nClient, [], none, []⟩
  | .data payload =>
      let d : DOut :=
        if 1 < nClient then dispatch env.disp i payload fd nClient
        else ⟨fd, nClient, [], []⟩
      if payload.take MSG_C.length = MSG_C then
        let ackEv : SendEv := ⟨i, d.fd.getD i (-1), ackWire⟩
        let out : Int :=
          match env.ackSend with
          | .ok => -1
          | .err .eintr => -1
          | .err .epipe => -1
          | .err .econnreset => -1
          | .err .other => -1
        ⟨out, d.fd, d.nClient, d.sends, some ackEv, d.closes⟩
      else
        ⟨0, d.fd, d.nClient, d.sends, none, d.closes⟩

/-!
## The event loop of `main` (server.c lines 185-267)
-/

/-- The state `main` threads through its loop: the table `fd[MAXCON]`,
the counter `nClient`, and the select mask `afds` (a set of descriptors). -/
structure SState where
  fd : List Int
  nClient : Int
  afds : Int → Bool

/-- `FD_SET(v, &s)`. -/
def fdSET (v : Int) (s : Int → Bool) : Int → Bool :=
  fun x => if x = v then true else s x

/-- `FD_CLR(v, &s)`. -/
def fdCLR (v : Int) (s : Int → Bool) : Int → Bool :=
  fun x => if x = v then false else s x

/-- Initial state of `main`: all slots `-1`, `nClient = 0`, and only the
passive socket in `afds`. -/
def initState (sockfd : Int) : SState :=
  ⟨List.replicate MAXCON (-1), 0, fun x => x == sockfd⟩

/-- New-connection branch of the loop (server.c lines 230-248): when the
passive socket is ready, look for a free slot; table full or a failed
`accept` leave the state unchanged; otherwise store the accepted
descriptor, increment `nClient` and add it to `afds`. -/
def acceptStep (acceptRes : Int) (listenReady : Bool) (st : SState) :
    SState :=
  if listenReady then
    let r := freeConnections (memOf st.fd)
    if r < 0 then st
    else if acceptRes < 0 then st
    else ⟨st.fd.set r.toNat acceptRes, st.nClient + 1,
          fdSET acceptRes st.afds⟩
  else st

/-- Result of the per-slot branch of the loop: the new state, the
`communication` result when one was performed, and the descriptors `main`
itself closed. -/
structure StepOut where
  st : SState
  comm : Option COut
  closes : List Int

/-- Connected-client branch of the loop at slot `i` (server.c lines
251-264): when the slot is occupied and its descriptor is in the read
mask, run `communication`; a negative return clears the descriptor from
`afds`, closes it, empties the slot and decrements `nClient`. -/
def slotStep (env : CommEnv) (rfds : Int → Bool) (i : Nat) (st : SState) :
    StepOut :=
  let fdi := st.fd.getD i (-1)
  if -1 < fdi ∧ rfds fdi = true then
    let c := communication env i st.fd st.nClient
    if c.out < 0 then
      ⟨⟨c.fd.set i (-1), c.nClient - 1, fdCLR fdi st.afds⟩, some c, [fdi]⟩
    else
      ⟨⟨c.fd, c.nClient, st.afds⟩, some c, []⟩
  else
    ⟨st, none, []⟩

/-- The `for (i = 0; i < MAXCON; i++)` sweep over client slots. -/
def slotsFold (comm : Nat → CommEnv) (rfds : Int → Bool) :
    List Nat → SState → SState
  | [], st => st
  | i :: rest, st => slotsFold comm rfds rest (slotStep (comm i) rfds i st).st

/-- Outcome of the blocking `select`: an error return (for example a
signal interruption), or a ready set. -/
inductive SelectRes
  | err
  | ready (r : Int → Bool)

/-- Environment of one iteration of the loop. -/
structure IterEnv where
  sel : SelectRes
  acceptRes : Int
  comm : Nat → CommEnv

/-- One iteration of the `while (1)` loop (server.c lines 219-264).
`rfds` is copied from `afds` before `select`; when `select` returns an
error the code only calls `perror` and falls through, so the iteration
proceeds with the copied mask as its read mask. -/
def mainIter (sockfd : Int) (env : IterEnv) (st : SState) : SState :=
  let rfds : Int → Bool :=
    match env.sel with
    | .err => st.afds
    | .ready r => r
  let st1 := acceptStep env.acceptRes (rfds sockfd) st
  slotsFold env.comm rfds (List.range MAXCON) st1

/-- States the event loop can reach from startup. -/
inductive Reachable (sockfd : Int) : SState → Prop
  | init : Reachable sockfd (initState sockfd)
  | step (s : SState) (env : IterEnv) :
      Reachable sockfd s → Reachable sockfd (mainIter sockfd env s)

/-- Occupancy test of a slot value, as written in server.c (`fd[k] > -1`;
`freeConnections` uses the equivalent `fd[k] >= 0`). -/
def occB : Int → Bool := fun v => -1 < v

/-- Number of occupied slots of a table. -/
def occCount (fd : List Int) : Nat := fd.countP occB

/-- The correctness invariant of the loop state: the table keeps its
length and the occupied-slot count agrees with `nClient`. -/
def Inv (st : SState) : Prop :=
  st.fd.length = MAXCON ∧ (occCount st.fd : Int) = st.nClient

/-- Number of send calls a trace directs at slot `k`. -/
def evCount (k : Nat) (sends : List SendEv) : Nat :=
  sends.countP (fun ev => ev.slot == k)

/-!
## Lemmas about `freeConnections`
-/

/-- When every table slot is occupied the loop runs to `fdlib = MAXCON`
and returns `-1`. -/
theorem fcStep_full (mem : Nat → Int) (hall : ∀ k, k < MAXCON → 0 ≤ mem k) :
    ∀ fuel fdlib acc, fdlib ≤ MAXCON → MAXCON < fuel + fdlib →
      (fcStep mem fuel fdlib acc).1 = -1 := by
  intro fuel
  induction fuel with
  | zero => intro fdlib acc h1 h2; exfalso; omega
  | succ n ih =>
      intro fdlib acc h1 h2
      by_cases hc : 0 ≤ mem fdlib ∧ fdlib < MAXCON
      · simp only [fcStep]
        rw [if_pos hc]
        exact ih (fdlib + 1) _ (by omega) (by omega)
      · have h5 : ¬ fdlib < MAXCON := fun hlt => hc ⟨hall fdlib hlt, hlt⟩
        simp only [fcStep]
        rw [if_neg hc, if_neg h5]

/-- When `k` is the lowest empty slot the loop stops there and returns
`k`. -/
theorem fcStep_least (mem : Nat → Int) (k : Nat) (hk : k < MAXCON)
    (hneg : mem k < 0) (hmin : ∀ j, j < k → 0 ≤ mem j) :
    ∀ fuel fdlib acc, fdlib ≤ k → MAXCON < fuel + fdlib →
      (fcStep mem fuel fdlib acc).1 = k := by
  intro fuel
  induction fuel with
  | zero => intro fdlib acc h1 h2; exfalso; omega
  | succ n ih =>
      intro fdlib acc h1 h2
      rcases Nat.lt_or_eq_of_le h1 with hlt | heq
      · have hc : 0 ≤ mem fdlib ∧ fdlib < MAXCON :=
          ⟨hmin fdlib hlt, by omega⟩
        simp only [fcStep]
        rw [if_pos hc]
        exact ih (fdlib + 1) _ (by omega) (by omega)
      · subst heq
        have hc : ¬ (0 ≤ mem fdlib ∧ fdlib < MAXCON) := by
          intro h
          omega
        simp only [fcStep]
        rw [if_neg hc]
        simp [if_pos hk]

/-- A nonnegative result of the scan is an in-range index of an empty
slot. -/
theorem fcStep_sound (mem : Nat → Int) :
    ∀ fuel fdlib acc, MAXCON < fuel + fdlib →
      0 ≤ (fcStep mem fuel fdlib acc).1 →
      (fcStep mem fuel fdlib acc).1.toNat < MAXCON ∧
        mem (fcStep mem fuel fdlib acc).1.toNat < 0 := by
  intro fuel
  induction fuel with
  | zero =>
      intro fdlib acc h2 hpos
      have h5 : ¬ fdlib < MAXCON := by omega
      simp only [fcStep] at hpos ⊢
      rw [if_neg h5] at hpos
      exact absurd hpos (by norm_num)
  | succ n ih =>
      intro fdlib acc h2 hpos
      by_cases hc : 0 ≤ mem fdlib ∧ fdlib < MAXCON
      · simp only [fcStep] at hpos ⊢
        rw [if_pos hc] at hpos ⊢
        exact ih _ _ (by omega) hpos
      · by_cases h5 : fdlib < MAXCON
        · have hneg : mem fdlib < 0 := by
            by_contra hn
            exact hc ⟨by omega, h5⟩
          simp only [fcStep] at hpos ⊢
          rw [if_neg hc] at hpos ⊢
          rw [if_pos h5]
          refine ⟨by simpa using h5, by simpa using hneg⟩
        · simp only [fcStep] at hpos ⊢
          rw [if_neg hc, if_neg h5] at hpos
          exact absurd hpos (by norm_num)

/-- The returned value never depends on the memory past the table: the
`MAXCON` bound in the loop condition cuts the scan off there, whatever the
out-of-bounds byte read at `fd[MAXCON]` yields. -/
theorem fcStep_result_congr (mem mem2 : Nat → Int)
    (h : ∀ j, j < MAXCON → mem j = mem2 j) :
    ∀ fuel fdlib acc acc2,
      (fcStep mem fuel fdlib acc).1 = (fcStep mem2 fuel fdlib acc2).1 := by
  intro fuel
  induction fuel with
  | zero => intro fdlib acc acc2; rfl
  | succ n ih =>
      intro fdlib acc acc2
      by_cases h5 : fdlib < MAXCON
      · have he : mem fdlib = mem2 fdlib := h fdlib h5
        by_cases hc : 0 ≤ mem fdlib ∧ fdlib < MAXCON
        · have hc2 : 0 ≤ mem2 fdlib ∧ fdlib < MAXCON := ⟨he ▸ hc.1, h5⟩
          simp only [fcStep]
          rw [if_pos hc, if_pos hc2]
          exact ih _ _ _
        · have hc2 : ¬ (0 ≤ mem2 fdlib ∧ fdlib < MAXCON) := by
            intro h2
            exact hc ⟨he ▸ h2.1, h5⟩
          simp only [fcStep]
          rw [if_neg hc, if_neg hc2]
      · have hc : ¬ (0 ≤ mem fdlib ∧ fdlib < MAXCON) := fun h2 => h5 h2.2
        have hc2 : ¬ (0 ≤ mem2 fdlib ∧ fdlib < MAXCON) := fun h2 => h5 h2.2
        simp only [fcStep]
        rw [if_neg hc, if_neg hc2]

/-- Soundness of `freeConnections` as used by the accept path: a
nonnegative return is an in-range empty slot. -/
theorem freeConnections_sound (mem : Nat → Int)
    (h : 0 ≤ freeConnections mem) :
    (freeConnections mem).toNat < MAXCON ∧
      mem (freeConnections mem).toNat < 0 :=
  fcStep_sound mem (MAXCON + 1) 0 [] (by omega) h

/-- Claim C8: for every connection table with at least one empty slot,
`freeConnections` returns the smallest index `k < MAXCON` whose slot is
empty (`fd[k] < 0`), and when no empty slot exists it returns `-1`. -/
theorem freeConnections_lowest (mem : Nat → Int) :
    (∀ k, k < MAXCON → mem k < 0 → (∀ j, j < k → 0 ≤ mem j) →
      freeConnections mem = k) ∧
    ((∀ k, k < MAXCON → 0 ≤ mem k) → freeConnections mem = -1) :=
  ⟨fun k hk hneg hmin =>
    fcStep_least mem k hk hneg hmin (MAXCON + 1) 0 [] (Nat.zero_le k)
      (by omega),
   fun hall => fcStep_full mem hall (MAXCON + 1) 0 [] (by omega) (by omega)⟩

/-- Witness for C8 at the concrete table `[3, -1, 2, -1, -1]`, whose
lowest empty slot is index 1. -/
theorem freeConnections_lowest_witness :
    freeConnections (memOf [3, -1, 2, -1, -1]) = 1 :=
  (freeConnections_lowest (memOf [3, -1, 2, -1, -1])).1 1 (by decide)
    (by decide)
    (fun j hj => by
      have hj0 : j = 0 := by omega
      subst hj0
      decide)

/-- Claim C3 (code bug): the loop condition
`(fd[fdlib] >= 0) && (fdlib < MAXCON)` reads the array element before
testing the bound, so on a full table the scan reads index `MAXCON`
itself, one past the table, while still reporting full (`-1`); the rest of
the claim holds: the iteration performs no accept and leaves every slot
and the live count unchanged. -/
theorem freeConnections_oob_read :
    fcAccesses (memOf [3, 4, 5, 6, 7]) = [0, 1, 2, 3, 4, 5] ∧
    MAXCON ∈ fcAccesses (memOf [3, 4, 5, 6, 7]) ∧
    ¬ MAXCON < MAXCON ∧
    freeConnections (memOf [3, 4, 5, 6, 7]) = -1 ∧
    ((mainIter 3
        ⟨.ready (fun x => x == 3), 9, fun _ => ⟨.closed, .ok, fun _ _ => .ok⟩⟩
        ⟨[4, 5, 6, 7, 8], 5, fun x => x == 3⟩).fd,
      (mainIter 3
        ⟨.ready (fun x => x == 3), 9, fun _ => ⟨.closed, .ok, fun _ _ => .ok⟩⟩
        ⟨[4, 5, 6, 7, 8], 5, fun x => x == 3⟩).nClient)
      = ([4, 5, 6, 7, 8], 5) := by decide

/-!
## List helper lemmas
-/

/-- `getD` after `set` at a different index. -/
theorem getD_set_ne (l : List Int) (k j : Nat) (x d : Int) (h : k ≠ j) :
    (l.set k x).getD j d = l.getD j d := by
  simp [List.getD, List.getElem?_set_ne h]

/-- `getD` after `set` at the same in-range index. -/
theorem getD_set_self (l : List Int) (k : Nat) (x d : Int)
    (h : k < l.length) :
    (l.set k x).getD k d = x := by
  simp [List.getD, List.getElem?_set_self, h]

/-- A slot that reads as occupied is in range of the table. -/
theorem getD_pos_lt (l : List Int) (k : Nat) (h : -1 < l.getD k (-1)) :
    k < l.length := by
  by_contra hk
  rw [List.getD_eq_default l (-1) (by omega)] at h
  omega

/-- Effect of `set` on an occupancy count. -/
theorem countP_set_add (p : Int → Bool) (l : List Int) :
    ∀ (k : Nat) (x : Int), k < l.length →
      (l.set k x).countP p + (if p (l.getD k (-1)) then 1 else 0)
        = l.countP p + (if p x then 1 else 0) := by
  induction l with
  | nil => intro k x h; simp at h
  | cons a t ih =>
      intro k x h
      cases k with
      | zero =>
          simp only [List.set_cons_zero, List.countP_cons,
            List.getD_cons_zero]
          omega
      | succ k =>
          have hih := ih k x (by simpa using h)
          simp only [List.set_cons_succ, List.countP_cons,
            List.getD_cons_succ]
          omega

/-!
## Lemmas about `dispatch`
-/

/-- Full case analysis of one step of the `dispatch` loop: either the slot
is skipped, or the four send outcomes of the source (success, interrupted
then success, interrupted then failed, immediate non-interrupt failure)
yield the four listed results. -/
theorem dispatchAt_spec (denv : Nat → Nat → SendRes) (msg : List Nat)
    (i k : Nat) (fd : List Int) (n : Int) :
    (¬ (k ≠ i ∧ -1 < fd.getD k (-1)) ∧
       dispatchAt denv msg i k fd n = ⟨fd, n, [], []⟩) ∨
    ((k ≠ i ∧ -1 < fd.getD k (-1)) ∧
      ((denv k 0 = .ok ∧
          dispatchAt denv msg i k fd n
            = ⟨fd, n, [⟨k, fd.getD k (-1), msg⟩], []⟩) ∨
       (denv k 0 = .err .eintr ∧ denv k 1 = .ok ∧
          dispatchAt denv msg i k fd n
            = ⟨fd, n,
               [⟨k, fd.getD k (-1), msg⟩, ⟨k, fd.getD k (-1), msg⟩], []⟩) ∨
       (denv k 0 = .err .eintr ∧ (∃ e, denv k 1 = .err e) ∧
          dispatchAt denv msg i k fd n
            = ⟨fd.set k (-1), n - 1,
               [⟨k, fd.getD k (-1), msg⟩, ⟨k, fd.getD k (-1), msg⟩],
               [fd.getD k (-1)]⟩) ∨
       ((∃ e, e ≠ Errno.eintr ∧ denv k 0 = .err e) ∧
          dispatchAt denv msg i k fd n
            = ⟨fd.set k (-1), n - 1, [⟨k, fd.getD k (-1), msg⟩],
               [fd.getD k (-1)]⟩))) := by
  by_cases hg : k ≠ i ∧ -1 < fd.getD k (-1)
  · right
    refine ⟨hg, ?_⟩
    rcases h0 : denv k 0 with _ | e0
    · left
      refine ⟨rfl, ?_⟩
      simp only [dispatchAt]
      rw [if_pos hg, h0]
    · cases e0 with
      | eintr =>
          rcases h1 : denv k 1 with _ | e1
          · right; left
            refine ⟨rfl, rfl, ?_⟩
            simp only [dispatchAt]
            rw [if_pos hg, h0, h1]
          · right; right; left
            refine ⟨rfl, ⟨e1, rfl⟩, ?_⟩
            simp only [dispatchAt]
            rw [if_pos hg, h0, h1]
      | epipe =>
          right; right; right
          refine ⟨⟨.epipe, by decide, rfl⟩, ?_⟩
          simp only [dispatchAt]
          rw [if_pos hg, h0]
      | econnreset =>
          right; right; right
          refine ⟨⟨.econnreset, by decide, rfl⟩, ?_⟩
          simp only [dispatchAt]
          rw [if_pos hg, h0]
      | other =>
          right; right; right
          refine ⟨⟨.other, by decide, rfl⟩, ?_⟩
          simp only [dispatchAt]
          rw [if_pos hg, h0]
  · left
    refine ⟨hg, ?_⟩
    simp only [dispatchAt]
    rw [if_neg hg]

/-- A step of the `dispatch` loop keeps the table length. -/
theorem dispatchAt_length (denv : Nat → Nat → SendRes) (msg : List Nat)
    (i k : Nat) (fd : List Int) (n : Int) :
    (dispatchAt denv msg i k fd n).fd.length = fd.length := by
  rcases dispatchAt_spec denv msg i k fd n with ⟨-, h⟩ |
    ⟨-, ⟨-, h⟩ | ⟨-, -, h⟩ | ⟨-, -, h⟩ | ⟨-, h⟩⟩ <;>
    simp [h]

/-- A step of the `dispatch` loop either leaves the table alone or clears
exactly slot `k`, and only when `k` is not the sender. -/
theorem dispatchAt_fd_cases (denv : Nat → Nat → SendRes) (msg : List Nat)
    (i k : Nat) (fd : List Int) (n : Int) :
    (dispatchAt denv msg i k fd n).fd = fd ∨
      (k ≠ i ∧ (dispatchAt denv msg i k fd n).fd = fd.set k (-1)) := by
  rcases dispatchAt_spec denv msg i k fd n with ⟨-, h⟩ |
    ⟨⟨hki, -⟩, ⟨-, h⟩ | ⟨-, -, h⟩ | ⟨-, -, h⟩ | ⟨-, h⟩⟩
  · left; rw [h]
  · left; rw [h]
  · left; rw [h]
  · right; exact ⟨hki, by rw [h]⟩
  · right; exact ⟨hki, by rw [h]⟩

/-- A step of the `dispatch` loop never changes the sender slot. -/
theorem dispatchAt_getD_i (denv : Nat → Nat → SendRes) (msg : List Nat)
    (i k : Nat) (fd : List Int) (n : Int) (d : Int) :
    (dispatchAt denv msg i k fd n).fd.getD i d = fd.getD i d := by
  rcases dispatchAt_fd_cases denv msg i k fd n with h | ⟨hki, h⟩
  · rw [h]
  · rw [h, getD_set_ne fd k i _ _ hki]

/-- A step of the `dispatch` loop changes no slot other than its own. -/
theorem dispatchAt_getD_ne (denv : Nat → Nat → SendRes) (msg : List Nat)
    (i k j : Nat) (fd : List Int) (n : Int) (d : Int) (hj : k ≠ j) :
    (dispatchAt denv msg i k fd n).fd.getD j d = fd.getD j d := by
  rcases dispatchAt_fd_cases denv msg i k fd n with h | ⟨-, h⟩
  · rw [h]
  · rw [h, getD_set_ne fd k j _ _ hj]

/-- Every send a step of the `dispatch` loop performs goes to slot `k`,
carries the formatted message, uses the descriptor stored in slot `k`, and
happens only when `k` is an occupied non-sender slot. -/
theorem dispatchAt_sends (denv : Nat → Nat → SendRes) (msg : List Nat)
    (i k : Nat) (fd : List Int) (n : Int) :
    ∀ ev ∈ (dispatchAt denv msg i k fd n).sends,
      ev = ⟨k, fd.getD k (-1), msg⟩ ∧ k ≠ i ∧ -1 < fd.getD k (-1) := by
  rcases dispatchAt_spec denv msg i k fd n with ⟨-, h⟩ |
    ⟨⟨hki, hocc⟩, ⟨-, h⟩ | ⟨-, -, h⟩ | ⟨-, -, h⟩ | ⟨-, h⟩⟩ <;>
    rw [h] <;> intro ev hev <;>
    simp only [List.mem_singleton, List.mem_cons, List.not_mem_nil,
      or_self, or_false] at hev <;>
    exact ⟨hev, hki, hocc⟩

/-- The `dispatch` loop keeps the table length. -/
theorem dispatchSlots_length (denv : Nat → Nat → SendRes) (msg : List Nat)
    (i : Nat) :
    ∀ (ks : List Nat) (fd : List Int) (n : Int),
      (dispatchSlots denv msg i ks fd n).fd.length = fd.length := by
  intro ks
  induction ks with
  | nil => intro fd n; rfl
  | cons k ks ih =>
      intro fd n
      simp only [dispatchSlots]
      rw [ih, dispatchAt_length]

/-- The `dispatch` loop never changes the sender slot. -/
theorem dispatchSlots_getD_i (denv : Nat → Nat → SendRes) (msg : List Nat)
    (i : Nat) :
    ∀ (ks : List Nat) (fd : List Int) (n : Int) (d : Int),
      (dispatchSlots denv msg i ks fd n).fd.getD i d = fd.getD i d := by
  intro ks
  induction ks with
  | nil => intro fd n d; rfl
  | cons k ks ih =>
      intro fd n d
      simp only [dispatchSlots]
      rw [ih, dispatchAt_getD_i]

/-- The `dispatch` loop changes no slot outside the index list it still
has to visit. -/
theorem dispatchSlots_getD_notin (denv : Nat → Nat → SendRes)
    (msg : List Nat) (i j : Nat) :
    ∀ (ks : List Nat) (fd : List Int) (n : Int) (d : Int),
      (∀ k ∈ ks, k ≠ j) →
      (dispatchSlots denv msg i ks fd n).fd.getD j d = fd.getD j d := by
  intro ks
  induction ks with
  | nil => intro fd n d _; rfl
  | cons k ks ih =>
      intro fd n d hks
      simp only [dispatchSlots]
      rw [ih _ _ _ (fun x hx => hks x (List.mem_cons_of_mem k hx)),
        dispatchAt_getD_ne denv msg i k j fd n d
          (hks k (List.mem_cons_self k ks))]

/-- Every send of the `dispatch` loop targets a slot of the visited
list. -/
theorem dispatchSlots_sends_slots (denv : Nat → Nat → SendRes)
    (msg : List Nat) (i : Nat) :
    ∀ (ks : List Nat) (fd : List Int) (n : Int),
      ∀ ev ∈ (dispatchSlots denv msg i ks fd n).sends, ev.slot ∈ ks := by
  intro ks
  induction ks with
  | nil => intro fd n ev hev; simp [dispatchSlots] at hev
  | cons k ks ih =>
      intro fd n ev hev
      simp only [dispatchSlots, List.mem_append] at hev
      rcases hev with hev | hev
      · have := (dispatchAt_sends denv msg i k fd n ev hev).1
        rw [this]
        exact List.mem_cons_self k ks
      · exact List.mem_cons_of_mem k (ih _ _ ev hev)

/-- Clearing a slot leaves `-1` there in every case. -/
theorem getD_set_neg (l : List Int) (k : Nat) :
    (l.set k (-1)).getD k (-1) = -1 := by
  by_cases h : k < l.length
  · exact getD_set_self l k (-1) (-1) h
  · rw [List.getD_eq_default]
    rw [List.length_set]
    omega

/-- Soundness of the `dispatch` loop traces: every send goes to a visited
occupied non-sender slot, uses that slot's descriptor as stored at entry,
and carries the formatted message. -/
theorem dispatchSlots_sends_sound (denv : Nat → Nat → SendRes)
    (msg : List Nat) (i : Nat) :
    ∀ (ks : List Nat) (fd : List Int) (n : Int), ks.Nodup →
      ∀ ev ∈ (dispatchSlots denv msg i ks fd n).sends,
        ev.slot ∈ ks ∧ ev.slot ≠ i ∧ ev.bytes = msg ∧
          -1 < fd.getD ev.slot (-1) ∧ ev.dst = fd.getD ev.slot (-1) := by
  intro ks
  induction ks with
  | nil => intro fd n _ ev hev; simp [dispatchSlots] at hev
  | cons k ks ih =>
      intro fd n hnd ev hev
      have hnd2 := List.nodup_cons.mp hnd
      simp only [dispatchSlots, List.mem_append] at hev
      rcases hev with hev | hev
      · obtain ⟨he, hki, hocc⟩ := dispatchAt_sends denv msg i k fd n ev hev
        subst he
        exact ⟨List.mem_cons_self k ks, hki, rfl, hocc, rfl⟩
      · obtain ⟨hmem, hni, hbytes, hocc, hdst⟩ :=
          ih (dispatchAt denv msg i k fd n).fd _ hnd2.2 ev hev
        have hk : k ≠ ev.slot := fun he => hnd2.1 (he ▸ hmem)
        rw [dispatchAt_getD_ne denv msg i k ev.slot fd n (-1) hk]
          at hocc hdst
        exact ⟨List.mem_cons_of_mem k hmem, hni, hbytes, hocc, hdst⟩

/-- Completeness of the `dispatch` loop traces: every visited occupied
non-sender slot receives a send of the formatted message on its stored
descriptor. -/
theorem dispatchSlots_covers (denv : Nat → Nat → SendRes) (msg : List Nat)
    (i : Nat) :
    ∀ (ks : List Nat) (fd : List Int) (n : Int), ks.Nodup →
      ∀ k ∈ ks, k ≠ i → -1 < fd.getD k (-1) →
        (⟨k, fd.getD k (-1), msg⟩ : SendEv)
          ∈ (dispatchSlots denv msg i ks fd n).sends := by
  intro ks
  induction ks with
  | nil => intro fd n _ k hk; simp at hk
  | cons k0 ks ih =>
      intro fd n hnd k hk hki hocc
      have hnd2 := List.nodup_cons.mp hnd
      simp only [dispatchSlots, List.mem_append]
      rcases List.mem_cons.mp hk with rfl | hk2
      · left
        rcases dispatchAt_spec denv msg i k fd n with ⟨hg, -⟩ |
          ⟨-, ⟨-, h⟩ | ⟨-, -, h⟩ | ⟨-, -, h⟩ | ⟨-, h⟩⟩
        · exact absurd ⟨hki, hocc⟩ hg
        all_goals rw [h]; simp
      · right
        have hne : k0 ≠ k := fun he => hnd2.1 (he ▸ hk2)
        have hfr := dispatchAt_getD_ne denv msg i k0 k fd n (-1) hne
        have hocc2 : -1 < (dispatchAt denv msg i k0 fd n).fd.getD k (-1) :=
          by rw [hfr]; exact hocc
        have hmem := ih (dispatchAt denv msg i k0 fd n).fd
          (dispatchAt denv msg i k0 fd n).nClient hnd2.2 k hk2 hki hocc2
        rw [hfr] at hmem
        exact hmem

/-- Claim C1: for an occupied sender slot `i` and a received payload,
`dispatch` sends the message formed by the sender label `C<i+1>: ` and the
payload to every occupied slot `k` distinct from `i`, and sends nothing to
slot `i` itself or to any empty slot (every send in the trace targets an
occupied non-sender slot). -/
theorem dispatch_fanout (denv : Nat → Nat → SendRes) (i : Nat)
    (payload : List Nat) (fd : List Int) (nClient : Int) :
    (∀ ev ∈ (dispatch denv i payload fd nClient).sends,
      ev.slot < MAXCON ∧ ev.slot ≠ i ∧ -1 < fd.getD ev.slot (-1) ∧
        ev.bytes = relayMsg i payload ∧ ev.dst = fd.getD ev.slot (-1)) ∧
    (∀ k, k < MAXCON → k ≠ i → -1 < fd.getD k (-1) →
      (⟨k, fd.getD k (-1), relayMsg i payload⟩ : SendEv)
        ∈ (dispatch denv i payload fd nClient).sends) := by
  constructor
  · intro ev hev
    obtain ⟨hmem, hni, hbytes, hocc, hdst⟩ :=
      dispatchSlots_sends_sound denv (relayMsg i payload) i
        (List.range MAXCON) fd nClient (List.nodup_range _) ev hev
    exact ⟨List.mem_range.mp hmem, hni, hocc, hbytes, hdst⟩
  · intro k hk hki hocc
    exact dispatchSlots_covers denv (relayMsg i payload) i
      (List.range MAXCON) fd nClient (List.nodup_range _) k
      (List.mem_range.mpr hk) hki hocc

/-- Witness for C1: sender slot 0 of the table `[4, 7, -1, -1, -1]`
relays `hi\n` to slot 1 as `C1: hi\n` on descriptor 7. -/
theorem dispatch_fanout_witness :
    (⟨1, 7, relayMsg 0 [104, 105, 10]⟩ : SendEv)
      ∈ (dispatch (fun _ _ => .ok) 0 [104, 105, 10]
          [4, 7, -1, -1, -1] 2).sends :=
  (dispatch_fanout (fun _ _ => .ok) 0 [104, 105, 10]
    [4, 7, -1, -1, -1] 2).2 1 (by decide) (by decide) (by decide)

/-- Claim C10: every relayed message is at most `MAXCHR - 1 = 255` bytes:
`snprintf` formats the label and the payload into the fixed 256-byte
buffer, so a payload whose length plus the label length exceeds 255 is
delivered truncated rather than in full. -/
theorem relay_truncated (i : Nat) (payload : List Nat) :
    (relayMsg i payload).length ≤ MAXCHR - 1 ∧
    (MAXCHR - 1 < (labelBytes i ++ payload).length →
      relayMsg i payload = (labelBytes i ++ payload).take (MAXCHR - 1) ∧
      relayMsg i payload ≠ labelBytes i ++ payload) ∧
    (∀ (denv : Nat → Nat → SendRes) (fd : List Int) (nClient : Int),
      ∀ ev ∈ (dispatch denv i payload fd nClient).sends,
        ev.bytes.length ≤ MAXCHR - 1) := by
  refine ⟨?_, fun hlong => ⟨rfl, fun heq => ?_⟩, ?_⟩
  · rw [relayMsg, List.length_take]
    omega
  · have hlen := congrArg List.length heq
    rw [relayMsg, List.length_take] at hlen
    omega
  · intro denv fd nClient ev hev
    have hb := (dispatchSlots_sends_sound denv (relayMsg i payload) i
      (List.range MAXCON) fd nClient (List.nodup_range _) ev hev).2.2.1
    rw [hb, relayMsg, List.length_take]
    omega

set_option maxRecDepth 4000 in
/-- Witness for C10 at a 300-byte payload: the relayed message differs
from the untruncated label-plus-payload. -/
theorem relay_truncated_witness :
    relayMsg 0 (List.replicate 300 65)
      ≠ labelBytes 0 ++ List.replicate 300 65 :=
  ((relay_truncated 0 (List.replicate 300 65)).2.1 (by decide)).2

/-- Per-recipient outcome of the `dispatch` loop over a duplicate-free
slot list: a clean send leaves the slot alone after one send call; an
interrupted send is retried exactly once; a failed retry or an immediate
non-interrupt failure closes the descriptor and clears exactly that
slot. -/
theorem dispatchSlots_at (denv : Nat → Nat → SendRes) (msg : List Nat)
    (i : Nat) :
    ∀ (ks : List Nat) (fd : List Int) (n : Int) (k : Nat),
      ks.Nodup → k ∈ ks → k ≠ i → -1 < fd.getD k (-1) →
      ((denv k 0 = .ok →
          (dispatchSlots denv msg i ks fd n).fd.getD k (-1)
              = fd.getD k (-1) ∧
            evCount k (dispatchSlots denv msg i ks fd n).sends = 1) ∧
       (denv k 0 = .err .eintr → denv k 1 = .ok →
          (dispatchSlots denv msg i ks fd n).fd.getD k (-1)
              = fd.getD k (-1) ∧
            evCount k (dispatchSlots denv msg i ks fd n).sends = 2) ∧
       (∀ e, denv k 0 = .err .eintr → denv k 1 = .err e →
          (dispatchSlots denv msg i ks fd n).fd.getD k (-1) = -1 ∧
            evCount k (dispatchSlots denv msg i ks fd n).sends = 2 ∧
            fd.getD k (-1) ∈ (dispatchSlots denv msg i ks fd n).closes) ∧
       (∀ e, e ≠ Errno.eintr → denv k 0 = .err e →
          (dispatchSlots denv msg i ks fd n).fd.getD k (-1) = -1 ∧
            evCount k (dispatchSlots denv msg i ks fd n).sends = 1 ∧
            fd.getD k (-1) ∈ (dispatchSlots denv msg i ks fd n).closes)) := by
  intro ks
  induction ks with
  | nil => intro fd n k _ hk; simp at hk
  | cons k0 ks ih =>
      intro fd n k hnd hk hki hocc
      have hnd2 := List.nodup_cons.mp hnd
      rcases List.mem_cons.mp hk with rfl | hk2
      · have hallne : ∀ x ∈ ks, x ≠ k := fun x hx he => hnd2.1 (he ▸ hx)
        have htailfd : ∀ (fd2 : List Int) (n2 : Int),
            (dispatchSlots denv msg i ks fd2 n2).fd.getD k (-1)
              = fd2.getD k (-1) :=
          fun fd2 n2 =>
            dispatchSlots_getD_notin denv msg i k ks fd2 n2 (-1) hallne
        have htailev : ∀ (fd2 : List Int) (n2 : Int),
            evCount k (dispatchSlots denv msg i ks fd2 n2).sends = 0 := by
          intro fd2 n2
          rw [evCount, List.countP_eq_zero]
          intro ev hev
          have hsl := dispatchSlots_sends_slots denv msg i ks fd2 n2 ev hev
          simp only [beq_iff_eq, decide_eq_true_eq]
          exact hallne ev.slot hsl
        rcases dispatchAt_spec denv msg i k fd n with ⟨hg, -⟩ | ⟨-, hbr⟩
        · exact absurd ⟨hki, hocc⟩ hg
        rcases hbr with ⟨h0, ha⟩ | ⟨h0, h1, ha⟩ | ⟨h0, he1, ha⟩ | ⟨he0, ha⟩
        · refine ⟨fun _ => ?_, fun hx => ?_, fun e hx => ?_, fun e hne0 hx => ?_⟩
          · simp only [dispatchSlots, ha]
            refine ⟨htailfd fd n, ?_⟩
            rw [evCount, List.countP_append]
            have h2 := htailev fd n
            rw [evCount] at h2
            rw [h2]
            simp
          · rw [h0] at hx; simp at hx
          · rw [h0] at hx; simp at hx
          · rw [h0] at hx; simp at hx
        · refine ⟨fun hx => ?_, fun _ _ => ?_, fun e _ hx => ?_, fun e hne0 hx => ?_⟩
          · rw [h0] at hx; simp at hx
          · simp only [dispatchSlots, ha]
            refine ⟨htailfd fd n, ?_⟩
            rw [evCount, List.countP_append]
            have h2 := htailev fd n
            rw [evCount] at h2
            rw [h2]
            simp
          · rw [h1] at hx; simp at hx
          · rw [h0] at hx
            injection hx with h2
            exact absurd h2.symm hne0
        · obtain ⟨e1, he1⟩ := he1
          refine ⟨fun hx => ?_, fun _ hx => ?_, fun e _ _ => ?_, fun e hne0 hx => ?_⟩
          · rw [h0] at hx; simp at hx
          · rw [he1] at hx; simp at hx
          · simp only [dispatchSlots, ha]
            refine ⟨?_, ?_, ?_⟩
            · rw [htailfd (fd.set k (-1)) (n - 1), getD_set_neg]
            · rw [evCount, List.countP_append]
              have h2 := htailev (fd.set k (-1)) (n - 1)
              rw [evCount] at h2
              rw [h2]
              simp
            · exact List.mem_append_left _ (List.mem_singleton.mpr rfl)
          · rw [h0] at hx
            injection hx with h2
            exact absurd h2.symm hne0
        · obtain ⟨e0, hne0, he0⟩ := he0
          refine ⟨fun hx => ?_, fun hx _ => ?_, fun e hx _ => ?_, fun e _ _ => ?_⟩
          · rw [he0] at hx; simp at hx
          · rw [he0] at hx
            injection hx with h2
            exact absurd h2 hne0
          · rw [he0] at hx
            injection hx with h2
            exact absurd h2 hne0
          · simp only [dispatchSlots, ha]
            refine ⟨?_, ?_, ?_⟩
            · rw [htailfd (fd.set k (-1)) (n - 1), getD_set_neg]
            · rw [evCount, List.countP_append]
              have h2 := htailev (fd.set k (-1)) (n - 1)
              rw [evCount] at h2
              rw [h2]
              simp
            · exact List.mem_append_left _ (List.mem_singleton.mpr rfl)
      · have hne : k0 ≠ k := fun he => hnd2.1 (he ▸ hk2)
        have hfr := dispatchAt_getD_ne denv msg i k0 k fd n (-1) hne
        have hocc2 : -1 < (dispatchAt denv msg i k0 fd n).fd.getD k (-1) := by
          rw [hfr]; exact hocc
        have hIH := ih (dispatchAt denv msg i k0 fd n).fd
          (dispatchAt denv msg i k0 fd n).nClient k hnd2.2 hk2 hki hocc2
        have hhead0 : evCount k (dispatchAt denv msg i k0 fd n).sends = 0 := by
          rw [evCount, List.countP_eq_zero]
          intro ev hev
          have hsl := (dispatchAt_sends denv msg i k0 fd n ev hev).1
          simp only [beq_iff_eq, decide_eq_true_eq]
          rw [hsl]
          exact hne
        refine ⟨fun h0 => ?_, fun h0 h1 => ?_, fun e h0 h1 => ?_,
          fun e hne0 h0 => ?_⟩
        · obtain ⟨hfd, hev⟩ := hIH.1 h0
          rw [hfr] at hfd
          simp only [dispatchSlots]
          refine ⟨hfd, ?_⟩
          rw [evCount, List.countP_append]
          rw [evCount] at hev hhead0
          rw [hev, hhead0]
        · obtain ⟨hfd, hev⟩ := hIH.2.1 h0 h1
          rw [hfr] at hfd
          simp only [dispatchSlots]
          refine ⟨hfd, ?_⟩
          rw [evCount, List.countP_append]
          rw [evCount] at hev hhead0
          rw [hev, hhead0]
        · obtain ⟨hfd, hev, hcl⟩ := hIH.2.2.1 e h0 h1
          rw [hfr] at hcl
          simp only [dispatchSlots]
          refine ⟨hfd, ?_, List.mem_append_right _ hcl⟩
          rw [evCount, List.countP_append]
          rw [evCount] at hev hhead0
          rw [hev, hhead0]
        · obtain ⟨hfd, hev, hcl⟩ := hIH.2.2.2 e hne0 h0
          rw [hfr] at hcl
          simp only [dispatchSlots]
          refine ⟨hfd, ?_, List.mem_append_right _ hcl⟩
          rw [evCount, List.countP_append]
          rw [evCount] at hev hhead0
          rw [hev, hhead0]

/-- Claim C6: a send failing with an interrupt is retried exactly once;
a failed retry, a broken pipe, a connection reset or any other error
closes and releases only that recipient slot, and the relay still
attempts delivery to every remaining occupied recipient. -/
theorem dispatch_per_recipient (denv : Nat → Nat → SendRes) (i : Nat)
    (payload : List Nat) (fd : List Int) (nClient : Int) (k : Nat)
    (hk : k < MAXCON) (hki : k ≠ i) (hocc : -1 < fd.getD k (-1)) :
    ((denv k 0 = .ok →
        (dispatch denv i payload fd nClient).fd.getD k (-1)
            = fd.getD k (-1) ∧
          evCount k (dispatch denv i payload fd nClient).sends = 1) ∧
     (denv k 0 = .err .eintr → denv k 1 = .ok →
        (dispatch denv i payload fd nClient).fd.getD k (-1)
            = fd.getD k (-1) ∧
          evCount k (dispatch denv i payload fd nClient).sends = 2) ∧
     (∀ e, denv k 0 = .err .eintr → denv k 1 = .err e →
        (dispatch denv i payload fd nClient).fd.getD k (-1) = -1 ∧
          evCount k (dispatch denv i payload fd nClient).sends = 2 ∧
          fd.getD k (-1) ∈ (dispatch denv i payload fd nClient).closes) ∧
     (∀ e, e ≠ Errno.eintr → denv k 0 = .err e →
        (dispatch denv i payload fd nClient).fd.getD k (-1) = -1 ∧
          evCount k (dispatch denv i payload fd nClient).sends = 1 ∧
          fd.getD k (-1) ∈ (dispatch denv i payload fd nClient).closes)) ∧
    (∀ j, j < MAXCON → j ≠ i → -1 < fd.getD j (-1) →
      ∃ ev ∈ (dispatch denv i payload fd nClient).sends, ev.slot = j) :=
  ⟨dispatchSlots_at denv (relayMsg i payload) i (List.range MAXCON) fd
      nClient k (List.nodup_range _) (List.mem_range.mpr hk) hki hocc,
   fun j hj hji hjocc =>
     ⟨⟨j, fd.getD j (-1), relayMsg i payload⟩,
      dispatchSlots_covers denv (relayMsg i payload) i (List.range MAXCON)
        fd nClient (List.nodup_range _) j (List.mem_range.mpr hj) hji hjocc,
      rfl⟩⟩

/-- Witness for C6: an interrupted send to slot 1 whose retry succeeds
leaves the slot connected after exactly two send calls. -/
theorem dispatch_per_recipient_witness :
    (dispatch (fun _ a => if a = 0 then SendRes.err .eintr else .ok) 0
        [104, 105, 10] [4, 7, -1, -1, -1] 2).fd.getD 1 (-1)
        = [4, 7, -1, -1, -1].getD 1 (-1) ∧
      evCount 1
        (dispatch (fun _ a => if a = 0 then SendRes.err .eintr else .ok) 0
          [104, 105, 10] [4, 7, -1, -1, -1] 2).sends = 2 :=
  (dispatch_per_recipient
      (fun _ a => if a = 0 then SendRes.err .eintr else .ok) 0
      [104, 105, 10] [4, 7, -1, -1, -1] 2 1 (by decide) (by decide)
      (by decide)).1.2.1 (by decide) (by decide)

/-!
## Lemmas about `communication` and the per-slot loop branch
-/

/-- `communication` either leaves the table and counter alone, or hands
back exactly the table and counter `dispatch` produced on the received
payload. -/
theorem communication_cases (env : CommEnv) (i : Nat) (fd : List Int)
    (n : Int) :
    ((communication env i fd n).fd = fd ∧
      (communication env i fd n).nClient = n) ∨
    (∃ payload, env.recv = .data payload ∧ 1 < n ∧
      (communication env i fd n).fd = (dispatch env.disp i payload fd n).fd ∧
      (communication env i fd n).nClient
        = (dispatch env.disp i payload fd n).nClient) := by
  rcases hrecv : env.recv with payload | - | -
  · by_cases hn : 1 < n
    · right
      refine ⟨payload, rfl, hn, ?_⟩
      simp only [communication, hrecv]
      rw [if_pos hn]
      by_cases hp : payload.take MSG_C.length = MSG_C
      · rw [if_pos hp]; exact ⟨by trivial, by trivial⟩
      · rw [if_neg hp]; exact ⟨by trivial, by trivial⟩
    · left
      simp only [communication, hrecv]
      rw [if_neg hn]
      by_cases hp : payload.take MSG_C.length = MSG_C
      · rw [if_pos hp]; exact ⟨by trivial, by trivial⟩
      · rw [if_neg hp]; exact ⟨by trivial, by trivial⟩
  · left
    simp only [communication, hrecv]
    exact ⟨by trivial, by trivial⟩
  · left
    simp only [communication, hrecv]
    exact ⟨by trivial, by trivial⟩

/-- `communication` never changes the slot of the client it reads from. -/
theorem communication_getD_i (env : CommEnv) (i : Nat) (fd : List Int)
    (n : Int) (d : Int) :
    (communication env i fd n).fd.getD i d = fd.getD i d := by
  rcases communication_cases env i fd n with ⟨h, -⟩ | ⟨p, -, -, h, -⟩
  · rw [h]
  · rw [h, dispatch, dispatchSlots_getD_i]

/-- `communication` keeps the table length. -/
theorem communication_length (env : CommEnv) (i : Nat) (fd : List Int)
    (n : Int) :
    (communication env i fd n).fd.length = fd.length := by
  rcases communication_cases env i fd n with ⟨h, -⟩ | ⟨p, -, -, h, -⟩
  · rw [h]
  · rw [h, dispatch, dispatchSlots_length]

/-- On a payload that passes the termination test `communication` always
returns `-1` (every branch of the ACK send sets `out = -1`) and records
the ACK send of `ackWire` on the reader descriptor. -/
theorem communication_exit (env : CommEnv) (i : Nat) (fd : List Int)
    (n : Int) (payload : List Nat) (hrecv : env.recv = .data payload)
    (hexit : payload.take MSG_C.length = MSG_C) :
    (communication env i fd n).out = -1 ∧
      (communication env i fd n).ack
        = some ⟨i, fd.getD i (-1), ackWire⟩ := by
  simp only [communication, hrecv]
  rw [if_pos hexit]
  constructor
  · rcases env.ackSend with - | e
    · rfl
    · cases e <;> rfl
  · by_cases hn : 1 < n
    · rw [if_pos hn]
      rw [dispatch, dispatchSlots_getD_i]
    · rw [if_neg hn]

/-- Claim C9: when the received payload is the termination marker, a
failure of the ACK send (interrupted, broken pipe, reset or any other
error) still terminates and releases the slot: `communication` returns a
negative value and the loop branch clears the slot, removes the
descriptor from the watch set, closes it and decrements the counter. -/
theorem ack_failure_still_releases (env : CommEnv) (rfds : Int → Bool)
    (i : Nat) (st : SState) (e : Errno) (hrecv : env.recv = .data MSG_C)
    (hfail : env.ackSend = .err e) (hocc : -1 < st.fd.getD i (-1))
    (hready : rfds (st.fd.getD i (-1)) = true) :
    (communication env i st.fd st.nClient).out = -1 ∧
      (slotStep env rfds i st).st.fd.getD i (-1) = -1 ∧
      (slotStep env rfds i st).st.nClient
        = (communication env i st.fd st.nClient).nClient - 1 ∧
      (slotStep env rfds i st).st.afds (st.fd.getD i (-1)) = false ∧
      (slotStep env rfds i st).closes = [st.fd.getD i (-1)] := by
  obtain ⟨hout, -⟩ := communication_exit env i st.fd st.nClient MSG_C hrecv
    (by decide)
  have hneg : (communication env i st.fd st.nClient).out < 0 := by
    rw [hout]; norm_num
  have hstep : slotStep env rfds i st
      = ⟨⟨(communication env i st.fd st.nClient).fd.set i (-1),
          (communication env i st.fd st.nClient).nClient - 1,
          fdCLR (st.fd.getD i (-1)) st.afds⟩,
         some (communication env i st.fd st.nClient),
         [st.fd.getD i (-1)]⟩ := by
    simp only [slotStep]
    rw [if_pos ⟨hocc, hready⟩, if_pos hneg]
  rw [hstep]
  refine ⟨hout, getD_set_neg _ _, rfl, ?_, rfl⟩
  simp [fdCLR]

/-- Witness for C9: slot 0 of `[4, -1, -1, -1, -1]` sends the marker, the
ACK send breaks with `EPIPE`, and the slot is still released. -/
theorem ack_failure_still_releases_witness :
    (communication ⟨.data MSG_C, .err .epipe, fun _ _ => .ok⟩ 0
        [4, -1, -1, -1, -1] 1).out = -1 ∧
      (slotStep ⟨.data MSG_C, .err .epipe, fun _ _ => .ok⟩ (fun _ => true) 0
        ⟨[4, -1, -1, -1, -1], 1, fun x => x == 3 || x == 4⟩).st.fd.getD 0
          (-1) = -1 ∧
      (slotStep ⟨.data MSG_C, .err .epipe, fun _ _ => .ok⟩ (fun _ => true) 0
        ⟨[4, -1, -1, -1, -1], 1, fun x => x == 3 || x == 4⟩).st.nClient
        = (communication ⟨.data MSG_C, .err .epipe, fun _ _ => .ok⟩ 0
            [4, -1, -1, -1, -1] 1).nClient - 1 ∧
      (slotStep ⟨.data MSG_C, .err .epipe, fun _ _ => .ok⟩ (fun _ => true) 0
        ⟨[4, -1, -1, -1, -1], 1, fun x => x == 3 || x == 4⟩).st.afds 4
        = false ∧
      (slotStep ⟨.data MSG_C, .err .epipe, fun _ _ => .ok⟩ (fun _ => true) 0
        ⟨[4, -1, -1, -1, -1], 1, fun x => x == 3 || x == 4⟩).closes = [4] :=
  ack_failure_still_releases ⟨.data MSG_C, .err .epipe, fun _ _ => .ok⟩
    (fun _ => true) 0 ⟨[4, -1, -1, -1, -1], 1, fun x => x == 3 || x == 4⟩
    .epipe rfl rfl (by decide) rfl

/-- Counterexample to C4 as stated: on reading the termination marker the
server does not send exactly the two bytes `OK`; the call
`send(fd[i], ACK_S, sizeof(ACK_S), 0)` passes `sizeof("OK") = 3` bytes, so
the NUL terminator goes on the wire too.  At slot 0 of table
`[4, -1, -1, -1, -1]` the recorded ACK send carries `[79, 75, 0]`, which
differs from the marker `[79, 75]`. -/
theorem ack_sends_extra_nul :
    (communication ⟨.data MSG_C, .ok, fun _ _ => .ok⟩ 0
        [4, -1, -1, -1, -1] 1).ack = some ⟨0, 4, [79, 75, 0]⟩ ∧
      ¬ ([79, 75, 0] : List Nat) = ackMarker := by decide

/-- Claim C4 as amended: when the server reads the termination marker
`exit\n` from occupied slot `i`, it sends the acknowledgement marker `OK`
followed by its NUL terminator (3 bytes, `sizeof(ACK_S)`) back to slot
`i`, and then releases the slot: the loop branch clears the slot, removes
the descriptor from the watch set, closes it and decrements the live
count. -/
theorem exit_ack_and_release (env : CommEnv) (rfds : Int → Bool) (i : Nat)
    (st : SState) (hrecv : env.recv = .data MSG_C)
    (hocc : -1 < st.fd.getD i (-1))
    (hready : rfds (st.fd.getD i (-1)) = true) :
    (communication env i st.fd st.nClient).ack
        = some ⟨i, st.fd.getD i (-1), ackWire⟩ ∧
      ackWire = ackMarker ++ [0] ∧
      (communication env i st.fd st.nClient).out = -1 ∧
      (slotStep env rfds i st).st.fd.getD i (-1) = -1 ∧
      (slotStep env rfds i st).st.nClient
        = (communication env i st.fd st.nClient).nClient - 1 ∧
      (slotStep env rfds i st).st.afds (st.fd.getD i (-1)) = false ∧
      (slotStep env rfds i st).closes = [st.fd.getD i (-1)] := by
  obtain ⟨hout, hack⟩ := communication_exit env i st.fd st.nClient MSG_C
    hrecv (by decide)
  have hneg : (communication env i st.fd st.nClient).out < 0 := by
    rw [hout]; norm_num
  have hstep : slotStep env rfds i st
      = ⟨⟨(communication env i st.fd st.nClient).fd.set i (-1),
          (communication env i st.fd st.nClient).nClient - 1,
          fdCLR (st.fd.getD i (-1)) st.afds⟩,
         some (communication env i st.fd st.nClient),
         [st.fd.getD i (-1)]⟩ := by
    simp only [slotStep]
    rw [if_pos ⟨hocc, hready⟩, if_pos hneg]
  rw [hstep]
  refine ⟨hack, rfl, hout, getD_set_neg _ _, rfl, ?_, rfl⟩
  simp [fdCLR]

/-- Witness for the amended C4: slot 0 of `[4, -1, -1, -1, -1]` sends the
marker and receives the 3-byte ACK, and the slot is released. -/
theorem exit_ack_and_release_witness :
    (communication ⟨.data MSG_C, .ok, fun _ _ => .ok⟩ 0
        [4, -1, -1, -1, -1] 1).ack = some ⟨0, 4, ackWire⟩ ∧
      ackWire = ackMarker ++ [0] ∧
      (communication ⟨.data MSG_C, .ok, fun _ _ => .ok⟩ 0
        [4, -1, -1, -1, -1] 1).out = -1 ∧
      (slotStep ⟨.data MSG_C, .ok, fun _ _ => .ok⟩ (fun _ => true) 0
        ⟨[4, -1, -1, -1, -1], 1, fun x => x == 3 || x == 4⟩).st.fd.getD 0
          (-1) = -1 ∧
      (slotStep ⟨.data MSG_C, .ok, fun _ _ => .ok⟩ (fun _ => true) 0
        ⟨[4, -1, -1, -1, -1], 1, fun x => x == 3 || x == 4⟩).st.nClient
        = (communication ⟨.data MSG_C, .ok, fun _ _ => .ok⟩ 0
            [4, -1, -1, -1, -1] 1).nClient - 1 ∧
      (slotStep ⟨.data MSG_C, .ok, fun _ _ => .ok⟩ (fun _ => true) 0
        ⟨[4, -1, -1, -1, -1], 1, fun x => x == 3 || x == 4⟩).st.afds 4
        = false ∧
      (slotStep ⟨.data MSG_C, .ok, fun _ _ => .ok⟩ (fun _ => true) 0
        ⟨[4, -1, -1, -1, -1], 1, fun x => x == 3 || x == 4⟩).closes
        = [4] :=
  exit_ack_and_release ⟨.data MSG_C, .ok, fun _ _ => .ok⟩ (fun _ => true) 0
    ⟨[4, -1, -1, -1, -1], 1, fun x => x == 3 || x == 4⟩ rfl (by decide) rfl

/-!
## The occupied-count invariant (claim C2)
-/

/-- One step of the `dispatch` loop keeps the occupied count in line with
`nClient`: a removal clears an occupied slot and decrements the
counter. -/
theorem dispatchAt_inv (denv : Nat → Nat → SendRes) (msg : List Nat)
    (i k : Nat) (fd : List Int) (n : Int)
    (hlen : fd.length = MAXCON) (hcnt : (occCount fd : Int) = n) :
    (dispatchAt denv msg i k fd n).fd.length = MAXCON ∧
      ((occCount (dispatchAt denv msg i k fd n).fd : Int)
        = (dispatchAt denv msg i k fd n).nClient) := by
  rcases dispatchAt_spec denv msg i k fd n with ⟨-, h⟩ |
    ⟨⟨-, hocc⟩, ⟨-, h⟩ | ⟨-, -, h⟩ | ⟨-, -, h⟩ | ⟨-, h⟩⟩ <;> rw [h]
  · exact ⟨hlen, hcnt⟩
  · exact ⟨hlen, hcnt⟩
  · exact ⟨hlen, hcnt⟩
  all_goals {
    have hklt : k < fd.length := getD_pos_lt fd k hocc
    have h2 := countP_set_add occB fd k (-1) hklt
    have hb : occB (fd.getD k (-1)) = true := decide_eq_true hocc
    have hb2 : occB (-1) = false := by decide
    rw [hb, hb2] at h2
    norm_num at h2
    refine ⟨by rw [List.length_set, hlen], ?_⟩
    show ((fd.set k (-1)).countP occB : Int) = n - 1
    rw [occCount] at hcnt
    omega
  }

/-- The `dispatch` loop preserves the occupied-count invariant. -/
theorem dispatchSlots_inv (denv : Nat → Nat → SendRes) (msg : List Nat)
    (i : Nat) :
    ∀ (ks : List Nat) (fd : List Int) (n : Int),
      fd.length = MAXCON → (occCount fd : Int) = n →
      (dispatchSlots denv msg i ks fd n).fd.length = MAXCON ∧
        ((occCount (dispatchSlots denv msg i ks fd n).fd : Int)
          = (dispatchSlots denv msg i ks fd n).nClient) := by
  intro ks
  induction ks with
  | nil => intro fd n hlen hcnt; exact ⟨hlen, hcnt⟩
  | cons k ks ih =>
      intro fd n hlen hcnt
      obtain ⟨hlen2, hcnt2⟩ := dispatchAt_inv denv msg i k fd n hlen hcnt
      obtain ⟨hlen3, hcnt3⟩ := ih (dispatchAt denv msg i k fd n).fd
        (dispatchAt denv msg i k fd n).nClient hlen2 hcnt2
      exact ⟨hlen3, hcnt3⟩

/-- `communication` preserves the occupied-count invariant. -/
theorem communication_inv (env : CommEnv) (i : Nat) (fd : List Int)
    (n : Int) (hlen : fd.length = MAXCON) (hcnt : (occCount fd : Int) = n) :
    (communication env i fd n).fd.length = MAXCON ∧
      ((occCount (communication env i fd n).fd : Int)
        = (communication env i fd n).nClient) := by
  rcases communication_cases env i fd n with ⟨h1, h2⟩ | ⟨p, -, -, h1, h2⟩
  · rw [h1, h2]; exact ⟨hlen, hcnt⟩
  · rw [h1, h2]
    exact dispatchSlots_inv env.disp (relayMsg i p) i (List.range MAXCON)
      fd n hlen hcnt

/-- The per-slot loop branch preserves the invariant: a release clears an
occupied slot and decrements the counter together. -/
theorem slotStep_inv (env : CommEnv) (rfds : Int → Bool) (i : Nat)
    (st : SState) (h : Inv st) : Inv (slotStep env rfds i st).st := by
  obtain ⟨hlen, hcnt⟩ := h
  by_cases hg : -1 < st.fd.getD i (-1) ∧ rfds (st.fd.getD i (-1)) = true
  · obtain ⟨hlen2, hcnt2⟩ :=
      communication_inv env i st.fd st.nClient hlen hcnt
    by_cases hout : (communication env i st.fd st.nClient).out < 0
    · have hstep : (slotStep env rfds i st).st
          = ⟨(communication env i st.fd st.nClient).fd.set i (-1),
             (communication env i st.fd st.nClient).nClient - 1,
             fdCLR (st.fd.getD i (-1)) st.afds⟩ := by
        simp only [slotStep]
        rw [if_pos hg, if_pos hout]
      rw [hstep]
      have hgd : (communication env i st.fd st.nClient).fd.getD i (-1)
          = st.fd.getD i (-1) := communication_getD_i env i st.fd st.nClient (-1)
      have hocc2 : -1 < (communication env i st.fd st.nClient).fd.getD i (-1) := by
        rw [hgd]; exact hg.1
      have hklt : i < (communication env i st.fd st.nClient).fd.length :=
        getD_pos_lt _ i hocc2
      have h2 := countP_set_add occB (communication env i st.fd st.nClient).fd
        i (-1) hklt
      have hb : occB ((communication env i st.fd st.nClient).fd.getD i (-1))
          = true := decide_eq_true hocc2
      have hb2 : occB (-1) = false := by decide
      rw [hb, hb2] at h2
      norm_num at h2
      refine ⟨by rw [List.length_set, hlen2], ?_⟩
      show (((communication env i st.fd st.nClient).fd.set i
        (-1)).countP occB : Int)
        = (communication env i st.fd st.nClient).nClient - 1
      rw [occCount] at hcnt2
      omega
    · have hstep : (slotStep env rfds i st).st
          = ⟨(communication env i st.fd st.nClient).fd,
             (communication env i st.fd st.nClient).nClient, st.afds⟩ := by
        simp only [slotStep]
        rw [if_pos hg, if_neg hout]
      rw [hstep]
      exact ⟨hlen2, hcnt2⟩
  · have hstep : (slotStep env rfds i st).st = st := by
      simp only [slotStep]
      rw [if_neg hg]
    rw [hstep]
    exact ⟨hlen, hcnt⟩

/-- The accept branch preserves the invariant: a connection is stored only
into an empty slot found by `freeConnections`, and the counter is
incremented with it. -/
theorem acceptStep_inv (acceptRes : Int) (ready : Bool) (st : SState)
    (h : Inv st) : Inv (acceptStep acceptRes ready st) := by
  obtain ⟨hlen, hcnt⟩ := h
  by_cases hready : ready = true
  · by_cases hr : freeConnections (memOf st.fd) < 0
    · have hstep : acceptStep acceptRes ready st = st := by
        simp only [acceptStep]
        rw [if_pos hready, if_pos hr]
      rw [hstep]; exact ⟨hlen, hcnt⟩
    · by_cases hacc : acceptRes < 0
      · have hstep : acceptStep acceptRes ready st = st := by
          simp only [acceptStep]
          rw [if_pos hready, if_neg hr, if_pos hacc]
        rw [hstep]; exact ⟨hlen, hcnt⟩
      · have hstep : acceptStep acceptRes ready st
            = ⟨st.fd.set (freeConnections (memOf st.fd)).toNat acceptRes,
               st.nClient + 1, fdSET acceptRes st.afds⟩ := by
          simp only [acceptStep]
          rw [if_pos hready, if_neg hr, if_neg hacc]
        rw [hstep]
        obtain ⟨hlt, hempty⟩ := freeConnections_sound (memOf st.fd)
          (by omega)
        have hklt : (freeConnections (memOf st.fd)).toNat < st.fd.length :=
          by rw [hlen]; exact hlt
        have h2 := countP_set_add occB st.fd
          (freeConnections (memOf st.fd)).toNat acceptRes hklt
        have hb : occB (st.fd.getD (freeConnections (memOf st.fd)).toNat
            (-1)) = false := by
          have : st.fd.getD (freeConnections (memOf st.fd)).toNat (-1) < 0 :=
            hempty
          simp only [occB, decide_eq_false_iff_not]
          omega
        have hb2 : occB acceptRes = true := decide_eq_true (by omega)
        rw [hb, hb2] at h2
        norm_num at h2
        refine ⟨by rw [List.length_set, hlen], ?_⟩
        show ((st.fd.set (freeConnections (memOf st.fd)).toNat
          acceptRes).countP occB : Int) = st.nClient + 1
        rw [occCount] at hcnt
        omega
  · have hstep : acceptStep acceptRes ready st = st := by
      simp only [acceptStep]
      rw [if_neg hready]
    rw [hstep]; exact ⟨hlen, hcnt⟩

/-- The per-slot sweep preserves the invariant. -/
theorem slotsFold_inv (comm : Nat → CommEnv) (rfds : Int → Bool) :
    ∀ (ks : List Nat) (st : SState), Inv st →
      Inv (slotsFold comm rfds ks st) := by
  intro ks
  induction ks with
  | nil => intro st h; exact h
  | cons k ks ih =>
      intro st h
      exact ih _ (slotStep_inv (comm k) rfds k st h)

/-- One full loop iteration preserves the invariant. -/
theorem mainIter_inv (sockfd : Int) (env : IterEnv) (st : SState)
    (h : Inv st) : Inv (mainIter sockfd env st) := by
  unfold mainIter
  exact slotsFold_inv env.comm _ (List.range MAXCON) _
    (acceptStep_inv env.acceptRes _ st h)

/-- The initial state satisfies the invariant. -/
theorem initState_inv (sockfd : Int) : Inv (initState sockfd) := by
  constructor
  · show (List.replicate MAXCON (-1 : Int)).length = MAXCON
    decide
  · show ((List.replicate MAXCON (-1 : Int)).countP occB : Int) = 0
    decide

/-- Every reachable state satisfies the invariant. -/
theorem reachable_inv (sockfd : Int) (s : SState)
    (h : Reachable sockfd s) : Inv s := by
  induction h with
  | init => exact initState_inv sockfd
  | step s env hr ih => exact mainIter_inv sockfd env s ih

/-- Claim C2: in every state the event loop can reach, the number of
occupied slots (entries with `fd[k] >= 0`) equals the live client counter
`nClient`; moreover every individual event of the loop (accept and
register, release in the per-slot branch, removal of a failed recipient
inside the relay) preserves the invariant. -/
theorem occupied_equals_nClient :
    (∀ (sockfd : Int) (s : SState), Reachable sockfd s →
      (occCount s.fd : Int) = s.nClient) ∧
    (∀ (acceptRes : Int) (ready : Bool) (st : SState),
      Inv st → Inv (acceptStep acceptRes ready st)) ∧
    (∀ (env : CommEnv) (rfds : Int → Bool) (i : Nat) (st : SState),
      Inv st → Inv (slotStep env rfds i st).st) ∧
    (∀ (denv : Nat → Nat → SendRes) (msg : List Nat) (i k : Nat)
      (fd : List Int) (n : Int),
      fd.length = MAXCON → (occCount fd : Int) = n →
      (dispatchAt denv msg i k fd n).fd.length = MAXCON ∧
        ((occCount (dispatchAt denv msg i k fd n).fd : Int)
          = (dispatchAt denv msg i k fd n).nClient)) := by
  exact ⟨fun sockfd s hr => (reachable_inv sockfd s hr).2,
    acceptStep_inv, slotStep_inv, dispatchAt_inv⟩

set_option maxRecDepth 10000 in
/-- Witness for C2: the invariant holds in the concrete state reached by
one accepting iteration from startup. -/
theorem occupied_equals_nClient_witness :
    (occCount (mainIter 3
        ⟨.ready (fun x => x == 3), 4,
          fun _ => ⟨.closed, .ok, fun _ _ => .ok⟩⟩
        (initState 3)).fd : Int)
      = (mainIter 3
        ⟨.ready (fun x => x == 3), 4,
          fun _ => ⟨.closed, .ok, fun _ _ => .ok⟩⟩
        (initState 3)).nClient :=
  occupied_equals_nClient.1 3 _
    (Reachable.step (initState 3)
      ⟨.ready (fun x => x == 3), 4, fun _ => ⟨.closed, .ok, fun _ _ => .ok⟩⟩
      Reachable.init)

/-!
## The `select` error path (claim C5) and the stale watch set (claim C7)
-/

set_option maxRecDepth 10000 in
/-- Counterexample to C5 as stated: when `select` returns an error (for
example a signal interruption) the loop does not retry the wait before
acting; the code only calls `perror` and falls through, so the iteration
proceeds on the mask copied from `afds` before the wait.  Here an
interrupted wait still accepts a pending connection: the state changes
from the empty initial state to one client. -/
theorem select_error_still_acts :
    (mainIter 3 ⟨.err, 5, fun _ => ⟨.closed, .ok, fun _ _ => .ok⟩⟩
        (initState 3)).fd = [5, -1, -1, -1, -1] ∧
      (mainIter 3 ⟨.err, 5, fun _ => ⟨.closed, .ok, fun _ _ => .ok⟩⟩
        (initState 3)).nClient = 1 ∧
      (initState 3).fd = [-1, -1, -1, -1, -1] ∧
      (initState 3).nClient = 0 := by decide

/-- Claim C5 as amended: when the blocking `select` reports an error the
loop logs it and continues the same iteration with the read mask it
copied from the watch set before the wait — it behaves exactly as if
every watched descriptor were reported ready, and performs no retry of
the wait before acting. -/
theorem select_error_uses_copied_mask (sockfd : Int) (env : IterEnv)
    (st : SState) (h : env.sel = .err) :
    mainIter sockfd env st
      = mainIter sockfd ⟨.ready st.afds, env.acceptRes, env.comm⟩ st := by
  unfold mainIter
  rw [h]

/-- Witness for the amended C5 at the initial state. -/
theorem select_error_uses_copied_mask_witness :
    mainIter 3 ⟨.err, 5, fun _ => ⟨.closed, .ok, fun _ _ => .ok⟩⟩
        (initState 3)
      = mainIter 3 ⟨.ready (initState 3).afds, 5,
          fun _ => ⟨.closed, .ok, fun _ _ => .ok⟩⟩ (initState 3) :=
  select_error_uses_copied_mask 3
    ⟨.err, 5, fun _ => ⟨.closed, .ok, fun _ _ => .ok⟩⟩ (initState 3) rfl

set_option maxRecDepth 100000 in
/-- Claim C7 (code bug): a connection the relay removes after a send
failure is reflected in the live count but NOT in the readiness watch
set: `dispatch` closes the descriptor, clears the table slot and
decrements `nClient`, but it has no access to `afds` (local to `main`)
and `main` never clears descriptors removed by `dispatch`.  Concretely:
clients on descriptors 4 (slot 0) and 7 (slot 1) are connected, client 0
sends `hi\n`, the relay send to descriptor 7 fails with `EPIPE`, and at
the next blocking wait the closed descriptor 7 is still in the watch
set. -/
theorem dispatch_removal_leaves_watch_set :
    (let s1 := mainIter 3 ⟨.ready (fun x => x == 3), 4,
        fun _ => ⟨.closed, .ok, fun _ _ => .ok⟩⟩ (initState 3)
     let s2 := mainIter 3 ⟨.ready (fun x => x == 3), 7,
        fun _ => ⟨.closed, .ok, fun _ _ => .ok⟩⟩ s1
     let s3 := mainIter 3 ⟨.ready (fun x => x == 4), -1,
        fun _ => ⟨.data [104, 105, 10], .ok, fun _ _ => .err .epipe⟩⟩ s2
     s2.fd = [4, 7, -1, -1, -1] ∧ s2.nClient = 2 ∧ s2.afds 7 = true ∧
       s3.fd = [4, -1, -1, -1, -1] ∧ s3.nClient = 1 ∧
       s3.afds 7 = true ∧ (7 : Int) ∉ s3.fd) := by decide

end GegeChat
